import Mathlib

set_option maxRecDepth 8000

/-
Shallow embedding of the Ansible INI inventory parser
(`lib/ansible/inventory/ini.py`, an early work-in-progress snapshot of the
v2 rewrite), together with a model of the Group data structure it mutates.

Modelling conventions:
  * A line of the input file is a `String` exactly as produced by Python's
    `readlines()` (that is, every line but possibly the last keeps its
    trailing newline character).  Character-level operations on a line run
    over `String.toList`.
  * Python dynamic-typing failures are real behaviours of this snapshot
    (the vars dispatch calls a method with the wrong arity, and the final
    pending check does attribute access on dictionary keys), so the error
    type distinguishes them from deliberate `AnsibleError` raises.
  * Python dictionaries are modelled as association lists in insertion
    order; CPython 2's iteration order is unspecified, and no theorem
    below depends on the particular order chosen here.
-/

namespace AnsibleIni

/-- Exceptions surfacing out of the parser: `ansibleError` models a raised
`AnsibleError(msg)`; the remaining constructors model Python runtime
exceptions (`TypeError`, `AttributeError`, `NameError`, `ValueError`,
`SyntaxError`). -/
inductive PyExc where
  | ansibleError (msg : String)
  | typeError
  | attributeError
  | nameError
  | valueError
  | synError
deriving DecidableEq, Repr

/-- Values a coerced inventory variable can take in the fragment of Python
values this parser produces. -/
inductive PyValue where
  | int (n : Int)
  | bool (b : Bool)
  | str (s : String)
  | pyNone
deriving DecidableEq, Repr

/-- Python whitespace for `str.strip()` and the regex class `\s`. -/
def pyIsSpace (c : Char) : Bool :=
  c = ' ' || c = '\t' || c = '\n' || c = '\r' || c = '\x0b' || c = '\x0c'

/-- Characters allowed in a group name by the pattern `[^:\]\s]`
(ini.py:229 and ini.py:238): anything except ':', ']' and whitespace. -/
def isGroupNameChar (c : Char) : Bool :=
  !(c = ':' || c = ']' || pyIsSpace c)

/-- Python `str.strip()`: drop leading and trailing whitespace. -/
def pyStrip (cs : List Char) : List Char :=
  ((cs.dropWhile pyIsSpace).reverse.dropWhile pyIsSpace).reverse

/-- Value of a non-empty string of decimal digits. -/
def digitsVal (cs : List Char) : Nat :=
  cs.foldl (fun a c => a * 10 + (c.toNat - 48)) 0

/-- Modelled from the Python standard library: `ast.literal_eval`
(ini.py:205), restricted to the literal forms this parser's value coercion
exercises: the constants `True`/`False`/`None` and unsigned decimal integer
literals without a superfluous leading zero.  A bare identifier such as
`true` parses as a `Name` node that is not a recognised constant, so
CPython raises `ValueError("malformed string")`; other strings outside the
modelled fragment (floats, quoted strings, containers, Python 2 octal
forms) are conservatively mapped to the same caught error — no claim below
distinguishes them, and the caller treats `ValueError` and `SyntaxError`
identically. -/
def literal_eval (cs : List Char) : Except PyExc PyValue :=
  if cs = "True".toList then .ok (.bool true)
  else if cs = "False".toList then .ok (.bool false)
  else if cs = "None".toList then .ok .pyNone
  else if cs ≠ [] ∧ cs.all Char.isDigit = true ∧ (cs.head? = some '0' → cs = ['0']) then
    .ok (.int (digitsVal cs))
  else .error .valueError

/-- Modelled from the spec: `ansible.utils.unicode.to_unicode` with
`nonstring='passthru'` (its module is not among the sources): character
encoding normalisation that passes non-strings through unchanged and is the
identity on already-decoded text, which is all the model's strings are. -/
def to_unicode (v : PyValue) : PyValue := v

/-- `InventoryParser._parse_value` (ini.py:201-214): if the value contains
no `#`, try `ast.literal_eval`, swallowing `ValueError` and `SyntaxError`
(leaving the value as the original string); finally normalise through
`to_unicode` with non-strings passed through. -/
def parse_value (v : List Char) : PyValue :=
  if '#' ∈ v then
    to_unicode (.str (String.mk v))
  else
    match literal_eval v with
    | .ok w => to_unicode w
    | .error _ => to_unicode (.str (String.mk v))

/-- `InventoryParser._parse_variable_definition` (ini.py:184-199), as the
body is written — note the method's own parameter list is `(self, line)`.
With an `=` present: `line.split("=", 1)`, both halves stripped, value
coerced.  Without one, the error message interpolates `i`, a name that is
not bound inside this method, so Python would raise `NameError` before the
`AnsibleError` can be constructed. -/
def parse_variable_definition (line : List Char) : Except PyExc (String × PyValue) :=
  if '=' ∈ line then
    let k := pyStrip (line.takeWhile (fun c => c ≠ '='))
    let v := pyStrip ((line.dropWhile (fun c => c ≠ '=')).tail)
    .ok (String.mk k, parse_value v)
  else
    .error .nameError

/-- Error message scheme shared by ini.py:150, 172, 182, 199:
`"%s:%d: Expected <what>, got: %s" % (filename, i, line)`. -/
def errMsg (filename : String) (i : Nat) (what : String) (line : String) : String :=
  s!"{filename}:{i}: Expected {what}, got: {line}"

/-- `InventoryParser._parse_group_name` (ini.py:162-172): match the line
against `^([^:\]\s]+)` and return the matched prefix, else raise. -/
def parse_group_name (filename : String) (line : String) (i : Nat) :
    Except PyExc String :=
  let nm := line.toList.takeWhile isGroupNameChar
  if nm = [] then .error (.ansibleError (errMsg filename i "group name" line))
  else .ok (String.mk nm)

/-- `InventoryParser._parse_host_definition` (ini.py:174-182).  The method
is marked `XXX Not yet finished.` in the source and unconditionally raises
before constructing any `Host`; the declared result type (a list of host
names) records the docstring's promised interface. -/
def parse_host_definition (filename : String) (line : String) (i : Nat) :
    Except PyExc (List String) :=
  .error (.ansibleError (errMsg filename i "host definition" line))

/-- Modelled from the spec: the Group record of the Group/Host Model
(`lib/ansible/inventory/group.py` is not among the sources).  A group owns
ordered child/parent name lists, directly assigned hosts, group-scoped
variables, and a derived `depth` that is 0 for a parentless group. -/
structure Group where
  name : String
  depth : Nat
  child_groups : List String
  parent_groups : List String
  hosts : List String
  gvars : List (String × PyValue)
deriving DecidableEq, Repr

/-- A freshly constructed `Group(name=n)`: no parent, so depth 0. -/
def newGroup (n : String) : Group :=
  { name := n, depth := 0, child_groups := [], parent_groups := [],
    hosts := [], gvars := [] }

/-- The parser's group registry `self.groups` (a dict name → Group),
modelled as an association list in insertion order; group objects are
identified by their registry key, which always equals their `name`. -/
abbrev Groups := List (String × Group)

def lookupG : Groups → String → Option Group
  | [], _ => none
  | (k, v) :: rest, n => if k = n then some v else lookupG rest n

/-- The registered group names, in insertion order. -/
def gkeys (gs : Groups) : List String := gs.map Prod.fst

/-- `self.groups[section] = Group(name=section)` for an unseen name. -/
def addNewGroup (gs : Groups) (n : String) : Groups := gs ++ [(n, newGroup n)]

/-- In-place mutation of the group object registered under `n`. -/
def updateGroup (gs : Groups) (n : String) (f : Group → Group) : Groups :=
  gs.map (fun p => if p.1 = n then (p.1, f p.2) else p)

/-- The per-entry effect of `add_child_group`: the parent's object gains
the child edge, the child's object gains the parent edge and the depth
push, and every other object is untouched. -/
def acgUpdate (parent child : String) (pg : Group) (n : String) (g : Group) :
    Group :=
  let g1 :=
    if n = parent then { g with child_groups := g.child_groups ++ [child] }
    else g
  if n = child then
    { g1 with
      depth := max g1.depth (pg.depth + 1),
      parent_groups :=
        if parent ∈ g1.parent_groups then g1.parent_groups
        else g1.parent_groups ++ [parent] }
  else g1

/-- Modelled from the spec: `group.add_child_group(other)` (§4.1): the
parent→child edge is established in both directions, adding an existing
edge is a no-op, and the child's derived depth (§3: `1 + max(parent
depths)` for a group with parents) is realised incrementally as
`max(child.depth, parent.depth + 1)`.  Per §9 no cycle check is assumed.
The registry form takes the two groups by their registry keys. -/
def add_child_group (gs : Groups) (parent child : String) : Groups :=
  match lookupG gs parent with
  | none => gs
  | some pg =>
    if child ∈ pg.child_groups then gs
    else gs.map (fun q => (q.1, acgUpdate parent child pg q.1 q.2))

/-- Modelled from the spec: `group.add_host(host)` (§4.1), idempotent.
Unreachable in this snapshot (the host sub-parser raises before returning),
kept for the structure of the dispatch loop. -/
def add_host (gs : Groups) (n : String) (h : String) : Groups :=
  updateGroup gs n
    (fun g => if h ∈ g.hosts then g else { g with hosts := g.hosts ++ [h] })

/-- One record of `pending_declaration` (ini.py:106-108 and 140-143):
`dict(line=i, state=state, name=..., parent=...)`, `parent` present only
for `:children` entries. -/
structure PendingEntry where
  line : Nat
  state : String
  name : String
  parent : Option String
deriving DecidableEq, Repr

abbrev Pending := List (String × PendingEntry)

def pendingLookup : Pending → String → Option PendingEntry
  | [], _ => none
  | (k, v) :: rest, n => if k = n then some v else pendingLookup rest n

/-- Python dict assignment `pending_declaration[k] = e`. -/
def pendingInsert (p : Pending) (k : String) (e : PendingEntry) : Pending :=
  if (pendingLookup p k).isSome then
    p.map (fun q => if q.1 = k then (k, e) else q)
  else p ++ [(k, e)]

/-- Python `del pending_declaration[k]`. -/
def pendingErase (p : Pending) (k : String) : Pending :=
  p.filter (fun q => decide (q.1 ≠ k))

/-- The second regex group of the section pattern (ini.py:239): absent
(a plain `[name]` header leaves Python's `state` equal to `None`), `vars`,
or `children`. -/
inductive Tag where
  | plain
  | vars
  | children
deriving DecidableEq, Repr

/-- The scanner's `state` variable: the initial `''` (ini.py:77), or the
second group of the last section header matched.  `tagged .plain` is
Python's `None`, which the dispatcher (ini.py:120-150) does NOT treat as
`''`: it falls through to the final `else` branch. -/
inductive SState where
  | init
  | tagged (t : Tag)
deriving DecidableEq, Repr

/-- After the group name and a `:`, the regex alternation `(vars|children)`
followed by `]` must match exactly here; else the optional group backtracks
to empty and `\]` fails against the `:`, so the whole match fails. -/
def tagAfterColon (rest : List Char) : Option Tag :=
  if rest.take 5 = "vars]".toList then some .vars
  else if rest.take 9 = "children]".toList then some .children
  else none

/-- `self.patterns['section'].match(line)` (regex at ini.py:236-243):
`^\[([^:\]\s]+)(?::(vars|children))?\]\s*#*` in verbose mode.  The
trailing `\s*#*` always matches (possibly emptily) and `match` does not
anchor the end, so everything after the closing bracket is ignored.  The
group name is the maximal run of name characters after `[` (maximal munch
is complete here because a shortened name would put a name character where
the regex next demands `:` or `]`). -/
def sectionMatch (cs : List Char) : Option (String × Tag) :=
  match cs with
  | [] => none
  | c :: rest =>
    if c = '[' then
      let nm := rest.takeWhile isGroupNameChar
      if nm = [] then none
      else
        match rest.dropWhile isGroupNameChar with
        | [] => none
        | d :: rest2 =>
          if d = ']' then some (String.mk nm, .plain)
          else if d = ':' then
            match tagAfterColon rest2 with
            | some tg => some (String.mk nm, tg)
            | none => none
          else none
    else none

/-- The scanner state threaded through the loop of
`InventoryParser._parse` (ini.py:66-150): the current section name
(`section` in the source — renamed, as `section` is a Lean keyword), the
current state, the group registry and the pending-declaration registry. -/
structure ScanState where
  sect : String
  state : SState
  groups : Groups
  pending : Pending
deriving DecidableEq, Repr

/-- The blank/comment skip (ini.py:84): `line == '\n' or
line.startswith(";") or line.startswith("#")`.  Note: only a line that IS
the single newline character counts as blank; other whitespace-only lines
fall through to the dispatcher. -/
def skipGuard (cs : List Char) : Bool :=
  cs = ['\n'] || cs.head? = some ';' || cs.head? = some '#'

/-- One iteration of the scan loop (ini.py:80-150) on line number `i`
(1-based).  Branches, in source order: the blank/comment skip (ini.py:84),
the section-header branch (ini.py:90-112), then the dispatch on `state`.
The `state == 'vars'` branch (ini.py:128) calls
`self._parse_variable_definition(line, i)`, but that method's parameter
list (ini.py:184) is `(self, line)`; Python therefore raises `TypeError`
at the call, before any parsing happens.  A plain header sets `state` to
`None`, which matches none of `''`/`'vars'`/`'children'` and lands in the
final `else` (ini.py:148-150) with `expected = state or 'host'`. -/
def parseLine (filename : String) (i : Nat) (line : String) (s : ScanState) :
    Except PyExc ScanState :=
  if skipGuard line.toList then .ok s
  else
    match sectionMatch line.toList with
    | some (sec, tag) =>
      let s1 : ScanState := { s with sect := sec, state := .tagged tag }
      if lookupG s.groups sec = none then
        let gs1 := addNewGroup s.groups sec
        if tag = Tag.vars then
          let p1 := pendingInsert s.pending sec ⟨i, "vars", sec, none⟩
          .ok { s1 with groups := gs1, pending := p1 }
        else if (pendingLookup s.pending sec).isSome then
          .ok { s1 with groups := gs1, pending := pendingErase s.pending sec }
        else
          .ok { s1 with groups := gs1 }
      else .ok s1
    | none =>
      match s.state with
      | .init =>
        match parse_host_definition filename line i with
        | .error e => .error e
        | .ok hs =>
          .ok { s with groups := hs.foldl (fun gs h => add_host gs s.sect h) s.groups }
      | .tagged .vars => .error .typeError
      | .tagged .children =>
        match parse_group_name filename line i with
        | .error e => .error e
        | .ok child =>
          if lookupG s.groups child = none then
            let gs1 := add_child_group (addNewGroup s.groups child) s.sect child
            let p1 := pendingInsert s.pending child ⟨i, "children", child, some s.sect⟩
            .ok { s with groups := gs1, pending := p1 }
          else
            .ok { s with groups := add_child_group s.groups s.sect child }
      | .tagged .plain =>
        .error (.ansibleError (errMsg filename i "comment, section, or host definition" line))

/-- `self.groups` as initialised by `InventoryParser.__init__`
(ini.py:47-50). -/
def initGroups : Groups :=
  [("all", newGroup "all"), ("ungrouped", newGroup "ungrouped")]

/-- The scanner's starting state (ini.py:76-77): pretend the first line was
`[ungrouped]`, expecting host definitions. -/
def initScan : ScanState :=
  { sect := "ungrouped", state := .init, groups := initGroups, pending := [] }

/-- The scan loop: lines numbered from 1 (`i += 1` precedes every use). -/
def scanLines (filename : String) : Nat → List String → ScanState → Except PyExc ScanState
  | _, [], s => .ok s
  | i, l :: rest, s =>
    match parseLine filename i l s with
    | .error e => .error e
    | .ok s1 => scanLines filename (i + 1) rest s1

/-- `InventoryParser._parse` (ini.py:66-160): the scan followed by the
pending-declaration check.  The check, `for g in pending_declaration:`
(ini.py:156), iterates the dictionary's KEYS — strings — and immediately
evaluates `g.state` (ini.py:157), attribute access on a `str`; whenever
anything is pending, Python raises `AttributeError` before either intended
`AnsibleError` can be built.  An empty registry skips the loop body and
the method returns normally. -/
def parse (filename : String) (lines : List String) : Except PyExc ScanState :=
  match scanLines filename 1 lines initScan with
  | .error e => .error e
  | .ok s =>
    match s.pending with
    | [] => .ok s
    | _ :: _ => .error .attributeError

/-- One iteration of the finalisation loop (ini.py:62-64): the group's
CURRENT depth and name attributes are read at iteration time. -/
def finalizeStep (acc : Groups) (n : String) : Groups :=
  match lookupG acc n with
  | none => acc
  | some g =>
    if g.depth = 0 ∧ g.name ≠ "all" then add_child_group acc "all" n else acc

/-- The finalisation loop of `InventoryParser.__init__` (ini.py:62-64):
`for group in self.groups.values()` iterates a snapshot of the registered
group objects (no group is created or removed by the loop), adding every
still-parentless group except `all` itself under `all`. -/
def finalize (gs : Groups) : Groups :=
  (gkeys gs).foldl finalizeStep gs

/-- `InventoryParser.__init__` (ini.py:39-64) after reading `lines` from
`filename`: run the scan, then finalise; any exception propagates. -/
def inventoryParser (filename : String) (lines : List String) :
    Except PyExc Groups :=
  match parse filename lines with
  | .error e => .error e
  | .ok s => .ok (finalize s.groups)

/-! ### Derived observations on the registry -/

/-- The child list of the group registered under `n` (empty when absent). -/
def childListOf (gs : Groups) (n : String) : List String :=
  ((lookupG gs n).map Group.child_groups).getD []

/-- The depth of the group registered under `n` (0 when absent). -/
def depthOf (gs : Groups) (n : String) : Nat :=
  ((lookupG gs n).map Group.depth).getD 0

/-- Number of occurrences of `n` in a list of group names. -/
def countOcc (n : String) : List String → Nat
  | [] => 0
  | m :: rest => (if m = n then 1 else 0) + countOcc n rest

/-! ### Registry invariants maintained by the scan -/

/-- Every group object is registered under its own name (registry keys and
the `name` attribute agree, as they do for every `self.groups[section] =
Group(name=section)` assignment in the source). -/
def NameOk (gs : Groups) : Prop := ∀ p ∈ gs, (p : String × Group).2.name = p.1

/-- The `all` group's child list has no duplicate edges, and every child
recorded there is a registered group whose depth has been pushed to at
least 1 by `add_child_group`. -/
def AllOk (gs : Groups) : Prop :=
  (childListOf gs "all").Nodup ∧
  ∀ c ∈ childListOf gs "all", c ∈ gkeys gs ∧ 1 ≤ depthOf gs c

/-- The registry invariant: distinct keys, name/key agreement, the two
built-in groups present, and the `all`-children facts. -/
def Inv (gs : Groups) : Prop :=
  (gkeys gs).Nodup ∧ NameOk gs ∧ "all" ∈ gkeys gs ∧ "ungrouped" ∈ gkeys gs ∧
    AllOk gs

/-! ### Association-list lemmas -/

theorem lookupG_none_iff (gs : Groups) (n : String) :
    lookupG gs n = none ↔ n ∉ gkeys gs := by
  induction gs with
  | nil => simp [lookupG, gkeys]
  | cons p rest ih =>
    obtain ⟨k, v⟩ := p
    by_cases hk : k = n
    · subst hk; simp [lookupG, gkeys]
    · simp [lookupG, gkeys, hk, ih, Ne.symm hk]

theorem lookupG_isSome_iff (gs : Groups) (n : String) :
    (lookupG gs n).isSome ↔ n ∈ gkeys gs := by
  cases h : lookupG gs n with
  | none => simp [(lookupG_none_iff gs n).mp h]
  | some g =>
    simp only [Option.isSome_some, true_iff]
    by_contra hmem
    rw [← lookupG_none_iff, h] at hmem
    cases hmem

theorem lookupG_cons (k : String) (v : Group) (rest : Groups) (m : String) :
    lookupG ((k, v) :: rest) m = if k = m then some v else lookupG rest m := rfl

theorem lookupG_mem (gs : Groups) (n : String) (g : Group)
    (h : lookupG gs n = some g) : (n, g) ∈ gs := by
  induction gs with
  | nil => simp [lookupG] at h
  | cons p rest ih =>
    obtain ⟨k, v⟩ := p
    by_cases hk : k = n
    · subst hk
      simp [lookupG_cons] at h
      subst h; exact List.mem_cons_self _ _
    · rw [lookupG_cons, if_neg hk] at h
      exact List.mem_cons_of_mem _ (ih h)

theorem lookupG_append (l1 l2 : Groups) (m : String) :
    lookupG (l1 ++ l2) m =
      match lookupG l1 m with
      | some g => some g
      | none => lookupG l2 m := by
  induction l1 with
  | nil => simp [lookupG]
  | cons p rest ih =>
    obtain ⟨k, v⟩ := p
    by_cases hk : k = m <;> simp [lookupG, hk, ih]

theorem gkeys_addNewGroup (gs : Groups) (n : String) :
    gkeys (addNewGroup gs n) = gkeys gs ++ [n] := by
  simp [gkeys, addNewGroup]

theorem lookupG_addNewGroup_old (gs : Groups) (n m : String) (g : Group)
    (h : lookupG gs m = some g) :
    lookupG (addNewGroup gs n) m = some g := by
  rw [addNewGroup, lookupG_append, h]

theorem lookupG_addNewGroup_new (gs : Groups) (n : String)
    (h : lookupG gs n = none) :
    lookupG (addNewGroup gs n) n = some (newGroup n) := by
  rw [addNewGroup, lookupG_append, h]; simp [lookupG]

theorem gkeys_updateGroup (gs : Groups) (n : String) (f : Group → Group) :
    gkeys (updateGroup gs n f) = gkeys gs := by
  induction gs with
  | nil => rfl
  | cons p rest ih =>
    obtain ⟨k, v⟩ := p
    by_cases hk : k = n <;> simp [updateGroup, gkeys, hk] <;>
      simpa [updateGroup, gkeys] using ih

theorem lookupG_updateGroup (gs : Groups) (n : String) (f : Group → Group)
    (m : String) :
    lookupG (updateGroup gs n f) m =
      if m = n then (lookupG gs m).map f else lookupG gs m := by
  induction gs with
  | nil => simp [lookupG, updateGroup]
  | cons p rest ih =>
    obtain ⟨k, v⟩ := p
    have hup : updateGroup ((k, v) :: rest) n f
        = (if k = n then (k, f v) else (k, v)) :: updateGroup rest n f := by
      simp [updateGroup]
    rw [hup]
    by_cases hk : k = n
    · rw [if_pos hk]
      by_cases hkm : k = m
      · have hmn : m = n := by rw [← hkm, hk]
        rw [lookupG_cons, if_pos hkm, lookupG_cons, if_pos hkm, if_pos hmn]
        rfl
      · rw [lookupG_cons, if_neg hkm, lookupG_cons, if_neg hkm, ih]
    · rw [if_neg hk]
      by_cases hkm : k = m
      · have hmn : ¬ m = n := by rw [← hkm]; exact fun hc => hk hc
        rw [lookupG_cons, if_pos hkm, lookupG_cons, if_pos hkm, if_neg hmn]
      · rw [lookupG_cons, if_neg hkm, lookupG_cons, if_neg hkm, ih]

/-! ### `add_child_group` lemmas -/

theorem acgUpdate_name (p c : String) (pg : Group) (n : String) (g : Group) :
    (acgUpdate p c pg n g).name = g.name := by
  simp only [acgUpdate]
  split_ifs <;> rfl

theorem acgUpdate_depth_ge (p c : String) (pg : Group) (n : String)
    (g : Group) : g.depth ≤ (acgUpdate p c pg n g).depth := by
  simp only [acgUpdate]
  split_ifs <;> simp [le_sup_left]

theorem acgUpdate_depth_child (p c : String) (pg : Group) (g : Group) :
    (acgUpdate p c pg c g).depth = max g.depth (pg.depth + 1) := by
  simp only [acgUpdate]
  split_ifs <;> rfl

theorem acgUpdate_children_other (p c : String) (pg : Group) (n : String)
    (g : Group) (hn : n ≠ p) :
    (acgUpdate p c pg n g).child_groups = g.child_groups := by
  simp only [acgUpdate]
  rw [if_neg hn]
  split_ifs <;> rfl

theorem acgUpdate_children_parent (p c : String) (pg : Group) (g : Group) :
    (acgUpdate p c pg p g).child_groups = g.child_groups ++ [c] := by
  simp only [acgUpdate]
  split_ifs <;> rfl

theorem acgUpdate_id (p c : String) (pg : Group) (n : String) (g : Group)
    (hp : n ≠ p) (hc : n ≠ c) : acgUpdate p c pg n g = g := by
  simp only [acgUpdate]
  rw [if_neg hp, if_neg hc]

theorem lookupG_mapWithKey (gs : Groups) (τ : String → Group → Group)
    (m : String) :
    lookupG (gs.map (fun q => (q.1, τ q.1 q.2))) m =
      (lookupG gs m).map (τ m) := by
  induction gs with
  | nil => simp [lookupG]
  | cons q rest ih =>
    obtain ⟨k, v⟩ := q
    by_cases hk : k = m
    · subst hk; simp [lookupG_cons, lookupG]
    · simp only [List.map_cons]
      rw [lookupG_cons, lookupG_cons, if_neg hk, if_neg hk, ih]

theorem gkeys_acg (gs : Groups) (p c : String) :
    gkeys (add_child_group gs p c) = gkeys gs := by
  unfold add_child_group
  cases lookupG gs p with
  | none => rfl
  | some pg =>
    by_cases hmem : c ∈ pg.child_groups
    · simp [hmem]
    · simp [hmem, gkeys]

theorem lookupG_acg (gs : Groups) (p c m : String) :
    lookupG (add_child_group gs p c) m = lookupG gs m ∨
    ∃ pg, lookupG gs p = some pg ∧ c ∉ pg.child_groups ∧
      lookupG (add_child_group gs p c) m =
        (lookupG gs m).map (acgUpdate p c pg m) := by
  unfold add_child_group
  cases hlp : lookupG gs p with
  | none => exact Or.inl rfl
  | some pg =>
    by_cases hmem : c ∈ pg.child_groups
    · simp [hmem]
    · exact Or.inr ⟨pg, rfl, hmem, by simp [hmem, lookupG_mapWithKey]⟩

theorem lookupG_acg_other (gs : Groups) (p c m : String)
    (hp : m ≠ p) (hc : m ≠ c) :
    lookupG (add_child_group gs p c) m = lookupG gs m := by
  rcases lookupG_acg gs p c m with h | ⟨pg, _, _, h⟩
  · exact h
  · rw [h]
    cases lookupG gs m with
    | none => rfl
    | some g => simp [acgUpdate_id p c pg m g hp hc]

theorem depthOf_acg_ge (gs : Groups) (p c m : String) :
    depthOf gs m ≤ depthOf (add_child_group gs p c) m := by
  rcases lookupG_acg gs p c m with h | ⟨pg, _, _, h⟩
  · rw [depthOf, depthOf, h]
  · rw [depthOf, depthOf, h]
    cases lookupG gs m with
    | none => simp
    | some g => simpa using acgUpdate_depth_ge p c pg m g

theorem name_acg (gs : Groups) (p c m : String) (g : Group)
    (h : lookupG gs m = some g) :
    ∃ g2, lookupG (add_child_group gs p c) m = some g2 ∧ g2.name = g.name := by
  rcases lookupG_acg gs p c m with h2 | ⟨pg, _, _, h2⟩
  · exact ⟨g, h2.trans h, rfl⟩
  · rw [h2, h]
    exact ⟨_, rfl, acgUpdate_name p c pg m g⟩

theorem isSome_acg (gs : Groups) (p c m : String)
    (h : (lookupG gs m).isSome) :
    (lookupG (add_child_group gs p c) m).isSome := by
  rw [lookupG_isSome_iff, gkeys_acg]
  rw [lookupG_isSome_iff] at h
  exact h

/-- How one `add_child_group` call can change the `all` group's child list:
either not at all, or (only when the parent is `all` and the edge is new)
by appending the child, whose depth is then at least 1. -/
theorem acg_all_children_cases (gs : Groups) (p c : String)
    (hc : (lookupG gs c).isSome) :
    childListOf (add_child_group gs p c) "all" = childListOf gs "all" ∨
    (p = "all" ∧ c ∉ childListOf gs "all" ∧
     childListOf (add_child_group gs p c) "all" = childListOf gs "all" ++ [c] ∧
     1 ≤ depthOf (add_child_group gs p c) c) := by
  unfold add_child_group
  cases hlp : lookupG gs p with
  | none => exact Or.inl rfl
  | some pg =>
    by_cases hmem : c ∈ pg.child_groups
    · simp [hmem]
    · simp only [hmem, ite_false]
      obtain ⟨gc, hgc⟩ := Option.isSome_iff_exists.mp hc
      by_cases hp : p = "all"
      · subst hp
        refine Or.inr ⟨rfl, ?_, ?_, ?_⟩
        · simp [childListOf, hlp, hmem]
        · rw [childListOf, childListOf, lookupG_mapWithKey, hlp]
          exact acgUpdate_children_parent "all" c pg pg
        · rw [depthOf, lookupG_mapWithKey, hgc]
          show 1 ≤ (acgUpdate "all" c pg c gc).depth
          rw [acgUpdate_depth_child]
          omega
      · refine Or.inl ?_
        rw [childListOf, childListOf, lookupG_mapWithKey]
        cases hla : lookupG gs "all" with
        | none => rfl
        | some ga =>
          exact acgUpdate_children_other p c pg "all" ga
            (fun hh => hp hh.symm)

/-! ### Invariant preservation -/

theorem nameOk_addNewGroup (gs : Groups) (n : String) (h : NameOk gs) :
    NameOk (addNewGroup gs n) := by
  intro p hp
  rcases List.mem_append.mp hp with h1 | h1
  · exact h p h1
  · simp only [List.mem_singleton] at h1
    subst h1; rfl

theorem nameOk_acg (gs : Groups) (p c : String) (h : NameOk gs) :
    NameOk (add_child_group gs p c) := by
  unfold add_child_group
  cases lookupG gs p with
  | none => exact h
  | some pg =>
    by_cases hmem : c ∈ pg.child_groups
    · simpa [hmem] using h
    · simp only [hmem, ite_false]
      intro q hq
      rcases List.mem_map.mp hq with ⟨r, hr, hq2⟩
      subst hq2
      show (acgUpdate p c pg r.1 r.2).name = r.1
      rw [acgUpdate_name]
      exact h r hr

theorem lookupG_addNewGroup_mem (gs : Groups) (n m : String)
    (h : m ∈ gkeys gs) :
    lookupG (addNewGroup gs n) m = lookupG gs m := by
  obtain ⟨g, hg⟩ := Option.isSome_iff_exists.mp ((lookupG_isSome_iff gs m).mpr h)
  rw [lookupG_addNewGroup_old gs n m g hg, hg]

theorem inv_addNewGroup (gs : Groups) (n : String) (hI : Inv gs)
    (hn : lookupG gs n = none) : Inv (addNewGroup gs n) := by
  obtain ⟨hnd, hname, hall, hung, hAnd, hAmem⟩ := hI
  have hnmem : n ∉ gkeys gs := (lookupG_none_iff gs n).mp hn
  have hclu : childListOf (addNewGroup gs n) "all" = childListOf gs "all" := by
    rw [childListOf, childListOf, lookupG_addNewGroup_mem gs n "all" hall]
  refine ⟨?_, nameOk_addNewGroup gs n hname, ?_, ?_, ?_, ?_⟩
  · rw [gkeys_addNewGroup]
    exact List.Nodup.append hnd (List.nodup_singleton n)
      (by simpa using hnmem)
  · rw [gkeys_addNewGroup]; exact List.mem_append_left _ hall
  · rw [gkeys_addNewGroup]; exact List.mem_append_left _ hung
  · rw [hclu]; exact hAnd
  · intro d hd
    rw [hclu] at hd
    obtain ⟨hdk, hdd⟩ := hAmem d hd
    refine ⟨by rw [gkeys_addNewGroup]; exact List.mem_append_left _ hdk, ?_⟩
    rw [depthOf, lookupG_addNewGroup_mem gs n d hdk]
    exact hdd

theorem inv_acg (gs : Groups) (p c : String) (hI : Inv gs)
    (hc : c ∈ gkeys gs) : Inv (add_child_group gs p c) := by
  obtain ⟨hnd, hname, hall, hung, hAnd, hAmem⟩ := hI
  have hc2 : (lookupG gs c).isSome := (lookupG_isSome_iff gs c).mpr hc
  refine ⟨by rw [gkeys_acg]; exact hnd, nameOk_acg gs p c hname,
    by rw [gkeys_acg]; exact hall, by rw [gkeys_acg]; exact hung, ?_, ?_⟩
  all_goals
    rcases acg_all_children_cases gs p c hc2 with hsame | ⟨hp, hnotm, happ, hd1⟩
  · rw [hsame]; exact hAnd
  · rw [happ]
    exact List.Nodup.append hAnd (List.nodup_singleton c) (by simpa using hnotm)
  · intro d hd
    rw [hsame] at hd
    obtain ⟨hdk, hdd⟩ := hAmem d hd
    exact ⟨by rw [gkeys_acg]; exact hdk,
      le_trans hdd (depthOf_acg_ge gs p c d)⟩
  · intro d hd
    rw [happ] at hd
    rcases List.mem_append.mp hd with hd | hd
    · obtain ⟨hdk, hdd⟩ := hAmem d hd
      exact ⟨by rw [gkeys_acg]; exact hdk,
        le_trans hdd (depthOf_acg_ge gs p c d)⟩
    · simp only [List.mem_singleton] at hd
      subst hd
      exact ⟨by rw [gkeys_acg]; exact hc, hd1⟩

theorem inv_parseLine (filename : String) (i : Nat) (line : String)
    (s s1 : ScanState) (h : parseLine filename i line s = .ok s1)
    (hI : Inv s.groups) : Inv s1.groups := by
  unfold parseLine at h
  split at h
  · cases h; exact hI
  · split at h
    · -- section header
      dsimp only at h
      split at h
      · -- unseen group
        rename_i hnone
        split at h
        · cases h; exact inv_addNewGroup _ _ hI hnone
        · split at h
          · cases h; exact inv_addNewGroup _ _ hI hnone
          · cases h; exact inv_addNewGroup _ _ hI hnone
      · cases h; exact hI
    · -- dispatch on the scanner state
      split at h
      · -- state = '' : host definitions
        split at h
        · simp at h
        · rename_i hs hok
          simp [parse_host_definition] at hok
      · -- state = 'vars'
        simp at h
      · -- state = 'children'
        split at h
        · simp at h
        · rename_i child hok
          dsimp only at h
          split at h
          · rename_i hnone
            cases h
            apply inv_acg _ _ _ (inv_addNewGroup _ _ hI hnone)
            rw [gkeys_addNewGroup]
            exact List.mem_append_right _ (by simp)
          · rename_i hsome
            cases h
            exact inv_acg _ _ _ hI
              ((lookupG_isSome_iff _ _).mp (Option.ne_none_iff_isSome.mp hsome))
      · -- state = None (after a plain header)
        simp at h

theorem inv_scanLines (filename : String) (lines : List String) (i : Nat)
    (s s1 : ScanState) (h : scanLines filename i lines s = .ok s1)
    (hI : Inv s.groups) : Inv s1.groups := by
  induction lines generalizing i s with
  | nil =>
    unfold scanLines at h
    cases h; exact hI
  | cons l rest ih =>
    unfold scanLines at h
    split at h
    · simp at h
    · rename_i s2 hstep
      exact ih (i + 1) s2 h (inv_parseLine filename i l s s2 hstep hI)

theorem inv_initGroups : Inv initGroups := by
  refine ⟨by decide, ?_, by decide, by decide, by decide, ?_⟩
  · intro p hp
    simp only [initGroups, List.mem_cons, List.mem_singleton] at hp
    rcases hp with h | h | h <;> first | (subst h; rfl) | cases h
  · intro d hd
    simp [childListOf, initGroups, lookupG, newGroup] at hd

theorem inv_parse (filename : String) (lines : List String) (s : ScanState)
    (h : parse filename lines = .ok s) : Inv s.groups := by
  unfold parse at h
  cases hscan : scanLines filename 1 lines initScan with
  | error e => rw [hscan] at h; simp at h
  | ok s2 =>
    rw [hscan] at h
    dsimp only at h
    cases hp : s2.pending with
    | nil =>
      rw [hp] at h
      dsimp only at h
      cases h
      exact inv_scanLines filename lines 1 initScan s hscan inv_initGroups
    | cons a rest =>
      rw [hp] at h
      simp at h

/-! ### Finalisation lemmas -/

theorem lookupG_name (gs : Groups) (n : String) (g : Group)
    (hname : NameOk gs) (h : lookupG gs n = some g) : g.name = n :=
  hname (n, g) (lookupG_mem gs n g h)

theorem countOcc_append (n : String) (l1 l2 : List String) :
    countOcc n (l1 ++ l2) = countOcc n l1 + countOcc n l2 := by
  induction l1 with
  | nil => simp [countOcc]
  | cons m rest ih => simp [countOcc, ih]; omega

theorem countOcc_eq_zero (n : String) (l : List String) (h : n ∉ l) :
    countOcc n l = 0 := by
  induction l with
  | nil => rfl
  | cons m rest ih =>
    simp only [List.mem_cons] at h
    push_neg at h
    show (if m = n then 1 else 0) + countOcc n rest = 0
    rw [if_neg (fun hc => h.1 hc.symm), ih h.2]

theorem gkeys_finalizeStep (acc : Groups) (m : String) :
    gkeys (finalizeStep acc m) = gkeys acc := by
  unfold finalizeStep
  cases lookupG acc m with
  | none => rfl
  | some g =>
    dsimp only
    split_ifs with hg
    · exact gkeys_acg acc "all" m
    · rfl

theorem gkeys_fold_finalizeStep (ms : List String) :
    ∀ gs : Groups, gkeys (ms.foldl finalizeStep gs) = gkeys gs := by
  induction ms with
  | nil => intro gs; rfl
  | cons m rest ih =>
    intro gs
    show gkeys (rest.foldl finalizeStep (finalizeStep gs m)) = gkeys gs
    rw [ih (finalizeStep gs m), gkeys_finalizeStep]

theorem gkeys_finalize (gs : Groups) : gkeys (finalize gs) = gkeys gs :=
  gkeys_fold_finalizeStep (gkeys gs) gs

theorem lookupG_finalizeStep_other (acc : Groups) (m n : String)
    (hmn : m ≠ n) (hna : n ≠ "all") :
    lookupG (finalizeStep acc m) n = lookupG acc n := by
  unfold finalizeStep
  cases lookupG acc m with
  | none => rfl
  | some g =>
    dsimp only
    split_ifs with hg
    · exact lookupG_acg_other acc "all" m n hna (fun hc => hmn hc.symm)
    · rfl

theorem finalizeStep_children_cases (acc : Groups) (m : String) :
    childListOf (finalizeStep acc m) "all" = childListOf acc "all" ∨
    childListOf (finalizeStep acc m) "all" = childListOf acc "all" ++ [m] := by
  unfold finalizeStep
  cases hl : lookupG acc m with
  | none => exact Or.inl rfl
  | some g =>
    dsimp only
    split_ifs with hg
    · rcases acg_all_children_cases acc "all" m
        (by rw [hl]; rfl) with hsame | ⟨_, _, happ, _⟩
      · exact Or.inl hsame
      · exact Or.inr happ
    · exact Or.inl rfl

theorem inv_finalizeStep (acc : Groups) (m : String) (hI : Inv acc) :
    Inv (finalizeStep acc m) := by
  unfold finalizeStep
  cases hl : lookupG acc m with
  | none => exact hI
  | some g =>
    dsimp only
    split_ifs with hg
    · exact inv_acg acc "all" m hI
        ((lookupG_isSome_iff acc m).mp (by rw [hl]; rfl))
    · exact hI

theorem fold_countOcc_preserve (n : String) :
    ∀ (ms : List String) (acc : Groups), n ∉ ms →
      countOcc n (childListOf (ms.foldl finalizeStep acc) "all") =
        countOcc n (childListOf acc "all") := by
  intro ms
  induction ms with
  | nil => intro acc _; rfl
  | cons m rest ih =>
    intro acc hn
    simp only [List.mem_cons] at hn
    push_neg at hn
    show countOcc n (childListOf (rest.foldl finalizeStep (finalizeStep acc m)) "all") = _
    rw [ih (finalizeStep acc m) hn.2]
    rcases finalizeStep_children_cases acc m with hsame | happ
    · rw [hsame]
    · rw [happ, countOcc_append, countOcc_eq_zero n [m] (by simpa using hn.1)]
      rfl

/-- The core of the finalisation argument: folding the snapshot of group
names over the finalisation step makes a still-parentless group (depth 0,
key distinct from `all`, registered exactly once in the snapshot) a child
of `all` exactly once. -/
theorem fold_adds_once (n : String) (g : Group) (hd : g.depth = 0)
    (hna : n ≠ "all") :
    ∀ (ms : List String) (acc : Groups), Inv acc → ms.Nodup → n ∈ ms →
      lookupG acc n = some g →
      countOcc n (childListOf (ms.foldl finalizeStep acc) "all") = 1 := by
  intro ms
  induction ms with
  | nil => intro acc _ _ hmem _; cases hmem
  | cons m rest ih =>
    intro acc hI hms hmem hlook
    by_cases hmn : m = n
    · subst hmn
      have hnotrest : m ∉ rest := (List.nodup_cons.mp hms).1
      show countOcc m (childListOf (rest.foldl finalizeStep (finalizeStep acc m)) "all") = 1
      rw [fold_countOcc_preserve m rest (finalizeStep acc m) hnotrest]
      -- the step at m's own turn appends m
      obtain ⟨hnd, hname, hall, hung, hAnd, hAmem⟩ := hI
      have hnotchild : m ∉ childListOf acc "all" := by
        intro hmem2
        have := (hAmem m hmem2).2
        rw [depthOf, hlook] at this
        simp [hd] at this
      have hgname : g.name = m := lookupG_name acc m g hname hlook
      have hstep : childListOf (finalizeStep acc m) "all" =
          childListOf acc "all" ++ [m] := by
        unfold finalizeStep
        rw [hlook]
        dsimp only
        rw [if_pos ⟨hd, by rw [hgname]; exact hna⟩]
        rcases acg_all_children_cases acc "all" m
          (by rw [hlook]; rfl) with hsame | ⟨_, _, happ, _⟩
        · -- impossible: the edge is new, so the list must grow
          exfalso
          -- `acg_all_children_cases` returns the no-change branch only when
          -- the parent is absent or the edge exists; rule both out
          unfold add_child_group at hsame
          obtain ⟨ga, hga⟩ := Option.isSome_iff_exists.mp
            ((lookupG_isSome_iff acc "all").mpr hall)
          rw [hga] at hsame
          by_cases hmm : m ∈ ga.child_groups
          · exact hnotchild (by simpa [childListOf, hga] using hmm)
          · simp only [hmm, ite_false] at hsame
            rw [childListOf, childListOf, lookupG_mapWithKey, hga] at hsame
            have : (acgUpdate "all" m ga "all" ga).child_groups
                = ga.child_groups := by simpa [childListOf, hga] using hsame
            rw [acgUpdate_children_parent] at this
            simp at this
        · exact happ
      rw [hstep, countOcc_append, countOcc_eq_zero m _ hnotchild]
      simp [countOcc]
    · have hnrest : n ∈ rest := by
        rcases List.mem_cons.mp hmem with h | h
        · exact absurd h.symm hmn
        · exact h
      show countOcc n (childListOf (rest.foldl finalizeStep (finalizeStep acc m)) "all") = 1
      exact ih (finalizeStep acc m) (inv_finalizeStep acc m hI)
        (List.nodup_cons.mp hms).2 hnrest
        (by rw [lookupG_finalizeStep_other acc m n hmn hna]; exact hlook)

/-! ### Section-header helper lemmas -/

theorem sectionMatch_shape (cs : List Char) (x : String × Tag)
    (h : sectionMatch cs = some x) : ∃ r, cs = '[' :: r := by
  cases cs with
  | nil => simp [sectionMatch] at h
  | cons c r =>
    by_cases hc : c = '['
    · exact ⟨r, by rw [hc]⟩
    · simp [sectionMatch, hc] at h

theorem skipGuard_of_sectionMatch (cs : List Char) (x : String × Tag)
    (h : sectionMatch cs = some x) : skipGuard cs = false := by
  obtain ⟨r, hr⟩ := sectionMatch_shape cs x h
  subst hr
  simp [skipGuard]

/-- Any line the section regex accepts is consumed without error, leaving
the scanner in the matched section and state. -/
theorem parseLine_header (filename : String) (i : Nat) (line : String)
    (s : ScanState) (sec : String) (tag : Tag)
    (hm : sectionMatch line.toList = some (sec, tag)) :
    ∃ s1, parseLine filename i line s = .ok s1 ∧
      s1.sect = sec ∧ s1.state = .tagged tag := by
  have hskip := skipGuard_of_sectionMatch _ _ hm
  unfold parseLine
  simp only [hskip, Bool.false_eq_true, if_false, hm]
  split
  · split
    · exact ⟨_, rfl, rfl, rfl⟩
    · split
      · exact ⟨_, rfl, rfl, rfl⟩
      · exact ⟨_, rfl, rfl, rfl⟩
  · exact ⟨_, rfl, rfl, rfl⟩

theorem takeWhile_name_append (nm : List Char) (d : Char) (t : List Char)
    (h2 : ∀ c ∈ nm, isGroupNameChar c = true)
    (hd2 : isGroupNameChar d = false) :
    (nm ++ d :: t).takeWhile isGroupNameChar = nm ∧
    (nm ++ d :: t).dropWhile isGroupNameChar = d :: t := by
  induction nm with
  | nil =>
    constructor <;> simp [List.takeWhile_cons, List.dropWhile_cons, hd2]
  | cons c rest ih =>
    have hc : isGroupNameChar c = true := h2 c (List.mem_cons_self c rest)
    have ih2 := ih (fun x hx => h2 x (List.mem_cons_of_mem c hx))
    constructor <;>
      simp [List.takeWhile_cons, List.dropWhile_cons, hc, ih2.1, ih2.2]

theorem sectionMatch_plain (nm t : List Char) (h1 : nm ≠ [])
    (h2 : ∀ c ∈ nm, isGroupNameChar c = true) :
    sectionMatch ('[' :: (nm ++ ']' :: t)) = some (String.mk nm, Tag.plain) := by
  obtain ⟨htake, hdrop⟩ := takeWhile_name_append nm ']' t h2 (by decide)
  simp [sectionMatch, htake, hdrop, h1]

theorem sectionMatch_vars (nm t : List Char) (h1 : nm ≠ [])
    (h2 : ∀ c ∈ nm, isGroupNameChar c = true) :
    sectionMatch ('[' :: (nm ++ ':' :: 'v' :: 'a' :: 'r' :: 's' :: ']' :: t)) =
      some (String.mk nm, Tag.vars) := by
  obtain ⟨htake, hdrop⟩ :=
    takeWhile_name_append nm ':' ('v' :: 'a' :: 'r' :: 's' :: ']' :: t) h2
      (by decide)
  have hcond : List.take 5 ('v' :: 'a' :: 'r' :: 's' :: ']' :: t)
      = "vars]".toList := rfl
  simp [sectionMatch, htake, hdrop, h1, tagAfterColon, hcond]

theorem sectionMatch_children (nm t : List Char) (h1 : nm ≠ [])
    (h2 : ∀ c ∈ nm, isGroupNameChar c = true) :
    sectionMatch ('[' :: (nm ++ ':' :: 'c' :: 'h' :: 'i' :: 'l' :: 'd' ::
      'r' :: 'e' :: 'n' :: ']' :: t)) = some (String.mk nm, Tag.children) := by
  obtain ⟨htake, hdrop⟩ :=
    takeWhile_name_append nm ':'
      ('c' :: 'h' :: 'i' :: 'l' :: 'd' :: 'r' :: 'e' :: 'n' :: ']' :: t) h2
      (by decide)
  have hcond : List.take 9
      ('c' :: 'h' :: 'i' :: 'l' :: 'd' :: 'r' :: 'e' :: 'n' :: ']' :: t)
      = "children]".toList := rfl
  simp [sectionMatch, htake, hdrop, h1, tagAfterColon, hcond]

/-! ### Claim theorems -/

/-- C1: the claim says a non-blank, non-comment, non-header line read in a
plain section is parsed as a host definition and its hosts are added to the
current group without an error.  The code's host sub-parser (ini.py:182,
marked `XXX Not yet finished.`) unconditionally raises: on the single
ungrouped host line `h1` the whole parse aborts with the `AnsibleError`
shown, and no host is ever added. -/
theorem c1_host_line_always_raises :
    inventoryParser "inv" ["h1\n"] =
      .error (.ansibleError "inv:1: Expected host definition, got: h1\n") := by
  rfl

/-- C2: the claim says a pending group (first seen via `:vars` or inside
`:children`) has its pending entry cleared by a later plain or `:children`
header, letting the parse complete.  In the code the clearing branch
(ini.py:109-110) sits inside `if section not in self.groups`, which is
false for every pending group (registering a pending group also registers
it in `self.groups`), so on `[a:children] / b / [b]` the entry for `b`
survives the scan and the post-scan check aborts (with the
`AttributeError` of the key-iteration slip at ini.py:156-157) instead of
completing. -/
theorem c2_pending_never_cleared :
    inventoryParser "inv" ["[a:children]\n", "b\n", "[b]\n"] =
      .error .attributeError := by
  rfl

/-- C3: the claim says a non-empty pending registry yields an
`AnsibleError` naming file, recorded line and group.  The code iterates
`for g in pending_declaration:` (ini.py:156), which yields the dict's
string keys, and immediately evaluates `g.state` — attribute access on a
`str` — so Python raises `AttributeError` before either message is built:
here on the lone `[g:vars]` header. -/
theorem c3_pending_check_attribute_error :
    inventoryParser "inv" ["[g:vars]\n"] = .error .attributeError := by
  rfl

/-- C4: the claim says a `key=value` line in a vars section is split on
the first `=`, trimmed, coerced and set on the group.  The dispatcher
(ini.py:128) calls `self._parse_variable_definition(line, i)`, but the
method (ini.py:184) accepts only `(self, line)`, so Python raises
`TypeError` at the call and no variable is ever set — even though the
method body itself would perform exactly the claimed split/trim/coercion,
as the second conjunct shows on the same line. -/
theorem c4_vars_line_type_error :
    inventoryParser "inv" ["[g:vars]\n", "x = 1\n"] = .error .typeError ∧
    parse_variable_definition ("x = 1\n".toList) = .ok ("x", .int 1) := by
  exact ⟨rfl, rfl⟩

/-- C5 counterexample: the claim maps the trimmed value `true` to a
boolean; the code's `ast.literal_eval('true')` raises `ValueError` (only
`True` is a recognised constant), so the caught failure falls back to the
plain string `"true"`, which is not a boolean value. -/
theorem c5_counterexample :
    parse_value ("true".toList) = PyValue.str "true" ∧
    PyValue.str "true" ≠ PyValue.bool true ∧
    PyValue.str "true" ≠ PyValue.bool false := by
  refine ⟨by decide, by decide, by decide⟩

/-- C5 (amended): value coercion maps `42` to the integer 42 and `True`
to a boolean; the lowercase `true` fails literal evaluation and falls back
to the plain string `"true"` non-fatally; a value containing `#` (such as
`hello#tail`) is returned as the literal string without literal
evaluation; and any value whose literal evaluation fails falls back to the
plain string non-fatally. -/
theorem c5_value_coercion :
    parse_value ("42".toList) = PyValue.int 42 ∧
    parse_value ("True".toList) = PyValue.bool true ∧
    parse_value ("true".toList) = PyValue.str "true" ∧
    parse_value ("hello#tail".toList) = PyValue.str "hello#tail" ∧
    (∀ v : List Char, '#' ∈ v → parse_value v = PyValue.str (String.mk v)) ∧
    (∀ (v : List Char) (e : PyExc), literal_eval v = .error e →
      parse_value v = PyValue.str (String.mk v)) := by
  refine ⟨by rfl, by rfl, by decide, by decide, ?_, ?_⟩
  · intro v hv
    simp [parse_value, to_unicode, hv]
  · intro v e he
    by_cases hv : '#' ∈ v
    · simp [parse_value, to_unicode, hv]
    · simp [parse_value, to_unicode, hv, he]

theorem c5_witness :
    parse_value ("a#b".toList) = PyValue.str "a#b" :=
  c5_value_coercion.2.2.2.2.1 ("a#b".toList) (by decide)

/-- C6: after a parse that completes, the groups `all` and `ungrouped`
are registered — and the empty input does complete, producing exactly the
finalised initial registry. -/
theorem c6_all_ungrouped_exist :
    (∀ (filename : String) (lines : List String) (gs : Groups),
        inventoryParser filename lines = .ok gs →
        "all" ∈ gkeys gs ∧ "ungrouped" ∈ gkeys gs) ∧
    (∀ filename : String,
        inventoryParser filename [] = .ok (finalize initGroups)) := by
  constructor
  · intro filename lines gs h
    unfold inventoryParser at h
    cases hp : parse filename lines with
    | error e => rw [hp] at h; simp at h
    | ok s =>
      rw [hp] at h
      dsimp only at h
      cases h
      obtain ⟨_, _, hall, hung, _⟩ := inv_parse filename lines s hp
      rw [gkeys_finalize]
      exact ⟨hall, hung⟩
  · intro filename; rfl

theorem c6_witness :
    "all" ∈ gkeys (finalize initGroups) ∧
    "ungrouped" ∈ gkeys (finalize initGroups) :=
  c6_all_ungrouped_exist.1 "inv" [] (finalize initGroups) rfl

/-- C7: for a scan that completes, every registered group of depth 0
other than `all` is not yet a child of `all`, and finalisation makes it a
direct child of `all` exactly once (it appears exactly once in `all`'s
child list afterwards). -/
theorem c7_top_level_once (filename : String) (lines : List String)
    (s : ScanState) (n : String) (g : Group)
    (hp : parse filename lines = .ok s)
    (hn : lookupG s.groups n = some g) (hd : g.depth = 0) (hna : n ≠ "all") :
    n ∉ childListOf s.groups "all" ∧
    countOcc n (childListOf (finalize s.groups) "all") = 1 := by
  obtain ⟨hnd, hname, hall, hung, hAnd, hAmem⟩ := inv_parse filename lines s hp
  have hnotchild : n ∉ childListOf s.groups "all" := by
    intro hmem
    have h2 := (hAmem n hmem).2
    rw [depthOf, hn] at h2
    simp [hd] at h2
  refine ⟨hnotchild, ?_⟩
  rw [finalize]
  exact fold_adds_once n g hd hna (gkeys s.groups) s.groups
    ⟨hnd, hname, hall, hung, hAnd, hAmem⟩ hnd
    ((lookupG_isSome_iff _ _).mp (by rw [hn]; rfl)) hn

theorem c7_witness :
    "ungrouped" ∉ childListOf initGroups "all" ∧
    countOcc "ungrouped" (childListOf (finalize initGroups) "all") = 1 :=
  c7_top_level_once "inv" [] initScan "ungrouped" (newGroup "ungrouped")
    rfl rfl rfl (by decide)

/-- C8: re-declaring a group name is idempotent: a section-header line for
an already-registered name is consumed without error and without touching
the registry (no second Group object; only the current section and state
move), and every completed scan leaves the registry with pairwise distinct
group names, so all hosts and variables of a name target the single
registered object. -/
theorem c8_redeclare_idempotent :
    (∀ (filename : String) (i : Nat) (line : String) (s : ScanState)
        (sec : String) (tag : Tag),
        sectionMatch line.toList = some (sec, tag) →
        (lookupG s.groups sec).isSome →
        parseLine filename i line s =
          .ok { s with sect := sec, state := .tagged tag }) ∧
    (∀ (filename : String) (lines : List String) (s : ScanState),
        parse filename lines = .ok s → (gkeys s.groups).Nodup) := by
  constructor
  · intro filename i line s sec tag hm hsome
    have hskip := skipGuard_of_sectionMatch _ _ hm
    unfold parseLine
    simp only [hskip, Bool.false_eq_true, if_false, hm]
    rw [if_neg (Option.ne_none_iff_isSome.mpr hsome)]
  · intro filename lines s h
    exact (inv_parse filename lines s h).1

theorem c8_witness :
    parseLine "inv" 2 "[g]\n"
      (ScanState.mk "g" (SState.tagged Tag.plain) (addNewGroup initGroups "g") []) =
      .ok (ScanState.mk "g" (SState.tagged Tag.plain)
        (addNewGroup initGroups "g") []) ∧
    (gkeys (addNewGroup initGroups "g")).Nodup :=
  ⟨c8_redeclare_idempotent.1 "inv" 2 "[g]\n"
      (ScanState.mk "g" (SState.tagged Tag.plain) (addNewGroup initGroups "g") [])
      "g" Tag.plain rfl rfl,
   c8_redeclare_idempotent.2 "inv" ["[g]\n", "[g]\n"]
      (ScanState.mk "g" (SState.tagged Tag.plain) (addNewGroup initGroups "g") [])
      rfl⟩

/-- C9 counterexample: the claim says a blank line consisting only of
whitespace is skipped with no error; but the skip test (ini.py:84) is
`line == '\n'`, so the whitespace-only line `"   \n"` falls through to the
host dispatcher and the parse aborts with an error instead of skipping. -/
theorem c9_counterexample :
    inventoryParser "inv" ["   \n"] =
      .error (.ansibleError "inv:1: Expected host definition, got:    \n") := by
  rfl

/-- C9 (amended): a line that is exactly the single newline, or whose
first character is `;` or `#`, is skipped entirely: the scanner state
(section, state, groups, pending) is returned unchanged and no error is
raised.  (Whitespace-only lines other than exactly `"\n"` are not skipped.) -/
theorem c9_skip_lines (filename : String) (i : Nat) (line : String)
    (s : ScanState)
    (h : line.toList = ['\n'] ∨ line.toList.head? = some ';' ∨
      line.toList.head? = some '#') :
    parseLine filename i line s = .ok s := by
  have hg : skipGuard line.toList = true := by
    simp only [skipGuard, Bool.or_eq_true, decide_eq_true_eq]
    rcases h with h | h | h
    · exact Or.inl (Or.inl h)
    · exact Or.inl (Or.inr h)
    · exact Or.inr h
  unfold parseLine
  rw [hg, if_pos rfl]

theorem c9_witness : parseLine "inv" 1 "\n" initScan = .ok initScan :=
  c9_skip_lines "inv" 1 "\n" initScan (Or.inl rfl)

/-- C10: any line whose leading characters form `[name]`, `[name:vars]`
or `[name:children]` (name a non-empty run of characters other than `:`,
`]` and whitespace) is treated as a section header whatever trailing text
follows the closing bracket: the scanner switches to that section and
state and raises no error. -/
theorem c10_header_trailing_ignored (filename : String) (i : Nat)
    (s : ScanState) (nm t : List Char) (h1 : nm ≠ [])
    (h2 : ∀ c ∈ nm, isGroupNameChar c = true) :
    (∃ s1, parseLine filename i (String.mk ('[' :: (nm ++ ']' :: t))) s =
        .ok s1 ∧ s1.sect = String.mk nm ∧ s1.state = .tagged .plain) ∧
    (∃ s2, parseLine filename i
        (String.mk ('[' :: (nm ++ ':' :: 'v' :: 'a' :: 'r' :: 's' :: ']' :: t)))
        s = .ok s2 ∧ s2.sect = String.mk nm ∧ s2.state = .tagged .vars) ∧
    (∃ s3, parseLine filename i
        (String.mk ('[' :: (nm ++ ':' :: 'c' :: 'h' :: 'i' :: 'l' :: 'd' ::
          'r' :: 'e' :: 'n' :: ']' :: t)))
        s = .ok s3 ∧ s3.sect = String.mk nm ∧ s3.state = .tagged .children) :=
  ⟨parseLine_header filename i _ s (String.mk nm) Tag.plain
      (sectionMatch_plain nm t h1 h2),
   parseLine_header filename i _ s (String.mk nm) Tag.vars
      (sectionMatch_vars nm t h1 h2),
   parseLine_header filename i _ s (String.mk nm) Tag.children
      (sectionMatch_children nm t h1 h2)⟩

theorem c10_witness :
    ∃ s1, parseLine "inv" 1
        (String.mk ('[' :: (['w', 'e', 'b'] ++ ']' ::
          " arbitrary trailing words\n".toList))) initScan = .ok s1 ∧
      s1.sect = String.mk ['w', 'e', 'b'] ∧ s1.state = .tagged .plain :=
  (c10_header_trailing_ignored "inv" 1 initScan ['w', 'e', 'b']
    (" arbitrary trailing words\n".toList) (by decide) (by decide)).1

end AnsibleIni
